import Mathlib

/-!
Verification development for the mask-based beamforming / permutation-invariant
training (PIT) core of this repository.  The definitions below are shallow
embeddings of the Python source: tensors are abstracted per batch element,
real-valued losses are modelled over `ℚ`, and floating-point spectra over
`ℝ`/`ℂ` where magnitudes and softmax are involved.
-/

/-! ## Python `itertools.permutations` -/

/-- One step of Python `itertools.permutations`: all ways of picking one
element out of a list, returning the picked element and the remaining list,
in order of the picked position. -/
def selections : List Nat → List (Nat × List Nat)
  | [] => []
  | x :: xs => (x, xs) :: (selections xs).map (fun p => (p.1, x :: p.2))

/-- Fuelled recursion implementing Python `itertools.permutations` of a whole
list: pick each element in turn as the head and recurse on the remainder.
The fuel is the length of the list. -/
def pyPermutations : Nat → List Nat → List (List Nat)
  | 0, _ => [[]]
  | n + 1, l =>
    (selections l).flatMap (fun p => (pyPermutations n p.2).map (fun q => p.1 :: q))

/-- `itertools.permutations(range(k))`: every permutation of `{0, …, k-1}`,
in lexicographic order. -/
def permutationsRange (k : Nat) : List (List Nat) :=
  pyPermutations k (List.range k)

/-! ## `torch.min` over a list of per-permutation losses -/

/-- Minimum entry of a list of rationals (the values part of
`torch.min(losses, dim=1)`); `0` for the empty list, which the solver never
produces. -/
def listMin : List ℚ → ℚ
  | [] => 0
  | [x] => x
  | x :: y :: t => min x (listMin (y :: t))

/-- Index of the first minimum entry (the indices part of
`torch.min(losses, dim=1)`). -/
def listIdxMin (l : List ℚ) : Nat :=
  l.indexOf (listMin l)

/-! ## The permutation loss -/

/-- Mean over a batch of size `B` of a per-batch-element quantity
(`Tensor.mean()` on a shape-`(B,)` tensor). -/
def batchMean (B : Nat) (f : Nat → ℚ) : ℚ :=
  (∑ b in Finset.range B, f b) / B

/-- `pair_loss` inside `_permutation_loss`: the aggregate distortion of one
permutation, per batch element `b`:
`sum(criterion(ref[s], inf[t]) for s, t in enumerate(permutation)) / len(permutation)`. -/
def pairLoss [Inhabited α] (criterion : α → α → Nat → ℚ) (ref inf : List α)
    (permutation : List Nat) (b : Nat) : ℚ :=
  ((List.range permutation.length).map
      (fun s => criterion (ref.getD s default) (inf.getD (permutation.getD s 0) default) b)).sum /
    permutation.length

/-- The row `losses[b, :]` of the stacked loss tensor inside
`_permutation_loss`: the loss of every permutation, in enumeration order,
at batch element `b`. -/
def lossesList [Inhabited α] (criterion : α → α → Nat → ℚ) (ref inf : List α)
    (K b : Nat) : List ℚ :=
  (permutationsRange K).map (fun p => pairLoss criterion ref inf p b)

/-- Shallow embedding of `ESPnetEnhancementModel._permutation_loss`
(`espnet2/enh/espnet_model.py`; the `_permutation_loss` of
`espnet2/asr/frontend/espnet_model.py` is the same code with `use_pit`
fixed to `true`).  Tensors of shape `(batch, …)` are abstracted to values
of a type `α`; `criterion` returns the per-batch-element scalar loss as a
function of the batch element index; `B` is the batch size.  The returned
permutation is either per-batch-element indices into the enumeration of
permutations (PIT search, or the supplied `perm` returned unchanged) or
the identity permutation list (non-PIT branch). -/
def permutationLoss [Inhabited α] (B : Nat) (ref inf : List α)
    (criterion : α → α → Nat → ℚ) (perm : Option (Nat → Nat)) (use_pit : Bool) :
    ℚ × ((Nat → Nat) ⊕ List Nat) :=
  let num_spk := ref.length
  if use_pit then
    let losses := fun b => lossesList criterion ref inf num_spk b
    match perm with
    | none =>
      (batchMean B (fun b => listMin (losses b)),
       Sum.inl (fun b => listIdxMin (losses b)))
    | some pm =>
      (batchMean B (fun b => (losses b).getD (pm b) 0), Sum.inl pm)
  else
    (batchMean B (fun b => pairLoss criterion ref inf (List.range num_spk) b),
     Sum.inr (List.range num_spk))

/-! ## Properties of the permutation enumeration -/

theorem selections_map_fst (l : List Nat) : (selections l).map Prod.fst = l := by
  induction l with
  | nil => rfl
  | cons x xs ih =>
    show x :: ((selections xs).map fun p => (p.1, x :: p.2)).map Prod.fst = x :: xs
    rw [List.map_map]
    have hcomp : (Prod.fst ∘ fun p : Nat × List Nat => (p.1, x :: p.2)) = Prod.fst := rfl
    rw [hcomp, ih]

theorem length_selections (l : List Nat) : (selections l).length = l.length := by
  have := congrArg List.length (selections_map_fst l)
  simpa using this

theorem perm_of_mem_selections {l : List Nat} {p : Nat × List Nat}
    (h : p ∈ selections l) : (p.1 :: p.2).Perm l := by
  induction l generalizing p with
  | nil => simp [selections] at h
  | cons x xs ih =>
    simp only [selections, List.mem_cons, List.mem_map] at h
    rcases h with h | ⟨q, hq, rfl⟩
    · subst h; exact List.Perm.refl _
    · exact (List.Perm.swap x q.1 q.2).trans ((ih hq).cons x)

theorem sublist_of_mem_selections {l : List Nat} {p : Nat × List Nat}
    (h : p ∈ selections l) : p.2.Sublist l := by
  induction l generalizing p with
  | nil => simp [selections] at h
  | cons x xs ih =>
    simp only [selections, List.mem_cons, List.mem_map] at h
    rcases h with h | ⟨q, hq, rfl⟩
    · subst h; exact List.sublist_cons_self x xs
    · exact (ih hq).cons₂ x

theorem mem_selections_of_mem {l : List Nat} {a : Nat} (h : a ∈ l) :
    (a, l.erase a) ∈ selections l := by
  induction l with
  | nil => simp at h
  | cons x xs ih =>
    by_cases hax : x = a
    · subst hax
      simp [selections, List.erase_cons_head]
    · have hmem : a ∈ xs := by
        rcases List.mem_cons.mp h with h1 | h1
        · exact absurd h1.symm hax
        · exact h1
      have herase : (x :: xs).erase a = x :: xs.erase a :=
        List.erase_cons_tail (by simpa using hax)
      rw [herase]
      simp only [selections, List.mem_cons, List.mem_map]
      exact Or.inr ⟨(a, xs.erase a), ih hmem, rfl⟩

theorem perm_of_mem_pyPermutations :
    ∀ {n : Nat} {l : List Nat} {p : List Nat}, l.length = n →
      p ∈ pyPermutations n l → p.Perm l := by
  intro n
  induction n with
  | zero =>
    intro l p hl hp
    have hnil : l = [] := List.length_eq_zero.mp hl
    subst hnil
    simp only [pyPermutations, List.mem_singleton] at hp
    subst hp
    exact List.Perm.refl _
  | succ n ih =>
    intro l p hl hp
    simp only [pyPermutations, List.mem_flatMap, List.mem_map] at hp
    obtain ⟨s, hs, q, hq, rfl⟩ := hp
    have hperm : (s.1 :: s.2).Perm l := perm_of_mem_selections hs
    have hlen : s.2.length = n := by
      have := hperm.length_eq
      simp only [List.length_cons, hl] at this
      omega
    exact ((ih hlen hq).cons s.1).trans hperm

theorem mem_pyPermutations_of_perm :
    ∀ {p l : List Nat}, p.Perm l → p ∈ pyPermutations l.length l := by
  intro p
  induction p with
  | nil =>
    intro l h
    have : l = [] := h.symm.eq_nil
    subst this
    simp [pyPermutations]
  | cons a as ih =>
    intro l h
    have ha : a ∈ l := h.subset (List.mem_cons_self a as)
    have has : as.Perm (l.erase a) := (h.trans (List.perm_cons_erase ha)).cons_inv
    have hlen : l.length = as.length + 1 := by
      have := h.length_eq
      simpa using this.symm
    have hlenerase : (l.erase a).length = as.length := by
      have := has.length_eq
      omega
    rw [hlen]
    simp only [pyPermutations, List.mem_flatMap, List.mem_map]
    refine ⟨(a, l.erase a), mem_selections_of_mem ha, as, ?_, rfl⟩
    have := ih has
    rwa [hlenerase] at this

theorem sum_map_constant {β : Type} (L : List β) (f : β → Nat) (c : Nat)
    (h : ∀ x ∈ L, f x = c) : (L.map f).sum = L.length * c := by
  induction L with
  | nil => simp
  | cons x xs ih =>
    have hx : f x = c := h x (List.mem_cons_self x xs)
    have hxs := ih (fun y hy => h y (List.mem_cons_of_mem x hy))
    simp [hx, hxs, Nat.succ_mul, Nat.add_comm]

theorem length_pyPermutations :
    ∀ {n : Nat} {l : List Nat}, l.length = n →
      (pyPermutations n l).length = n.factorial := by
  intro n
  induction n with
  | zero => intro l hl; simp [pyPermutations, Nat.factorial]
  | succ n ih =>
    intro l hl
    simp only [pyPermutations, List.flatMap, List.length_flatten, List.map_map]
    have hconst : ∀ s ∈ selections l,
        ((pyPermutations n s.2).map (fun q => s.1 :: q)).length = n.factorial := by
      intro s hs
      have hlen : s.2.length = n := by
        have := (perm_of_mem_selections hs).length_eq
        simp only [List.length_cons, hl] at this
        omega
      simp [ih hlen]
    calc ((selections l).map
          (fun s => ((pyPermutations n s.2).map (fun q => s.1 :: q)).length)).sum
        = (selections l).length * n.factorial := by
          exact sum_map_constant _ _ _ hconst
      _ = (n + 1) * n.factorial := by rw [length_selections, hl]
      _ = (n + 1).factorial := (Nat.factorial_succ n).symm

theorem sorted_pyPermutations :
    ∀ {n : Nat} {l : List Nat}, l.length = n → l.Pairwise (· < ·) →
      (pyPermutations n l).Pairwise (List.Lex (· < ·)) := by
  intro n
  induction n with
  | zero => intro l hl _; simp [pyPermutations]
  | succ n ih =>
    intro l hl hsorted
    simp only [pyPermutations]
    rw [List.pairwise_flatMap]
    constructor
    · intro s hs
      rw [List.pairwise_map]
      have hlen : s.2.length = n := by
        have := (perm_of_mem_selections hs).length_eq
        simp only [List.length_cons, hl] at this
        omega
      have hsub : s.2.Pairwise (· < ·) :=
        List.Pairwise.sublist (sublist_of_mem_selections hs) hsorted
      exact (ih hlen hsub).imp (fun h => List.Lex.cons h)
    · have hfst : (selections l).Pairwise (fun s t => s.1 < t.1) := by
        have : ((selections l).map Prod.fst).Pairwise (· < ·) := by
          rw [selections_map_fst]; exact hsorted
        exact (List.pairwise_map.mp this)
      refine hfst.imp ?_
      intro s t hst x hx y hy
      simp only [List.mem_map] at hx hy
      obtain ⟨qx, _, rfl⟩ := hx
      obtain ⟨qy, _, rfl⟩ := hy
      exact List.Lex.rel hst

theorem mem_permutationsRange {k : Nat} {p : List Nat} :
    p ∈ permutationsRange k ↔ p.Perm (List.range k) := by
  constructor
  · intro h
    exact perm_of_mem_pyPermutations (List.length_range k) h
  · intro h
    have := mem_pyPermutations_of_perm h
    rwa [List.length_range] at this

theorem length_permutationsRange (k : Nat) :
    (permutationsRange k).length = k.factorial :=
  length_pyPermutations (List.length_range k)

theorem sorted_permutationsRange (k : Nat) :
    (permutationsRange k).Pairwise (List.Lex (· < ·)) :=
  sorted_pyPermutations (List.length_range k) (List.pairwise_lt_range k)

theorem permutationsRange_ne_nil (k : Nat) : permutationsRange k ≠ [] := by
  intro h
  have hlen := length_permutationsRange k
  rw [h] at hlen
  exact Nat.factorial_ne_zero k (by simpa using hlen.symm)

/-! ## Properties of the list minimum -/

theorem listMin_le {l : List ℚ} {x : ℚ} (h : x ∈ l) : listMin l ≤ x := by
  induction l with
  | nil => simp at h
  | cons a t ih =>
    cases t with
    | nil =>
      have hx : x = a := by simpa using h
      simp [listMin, hx]
    | cons b u =>
      rw [show listMin (a :: b :: u) = min a (listMin (b :: u)) from rfl]
      rcases List.mem_cons.mp h with rfl | hmem
      · exact min_le_left _ _
      · exact le_trans (min_le_right _ _) (ih hmem)

theorem listMin_mem : ∀ {l : List ℚ}, l ≠ [] → listMin l ∈ l := by
  intro l
  induction l with
  | nil => intro h; exact absurd rfl h
  | cons a t ih =>
    intro _
    cases t with
    | nil => simp [listMin]
    | cons b u =>
      rw [show listMin (a :: b :: u) = min a (listMin (b :: u)) from rfl]
      rcases le_total a (listMin (b :: u)) with hle | hle
      · simp [min_eq_left hle]
      · rw [min_eq_right hle]
        exact List.mem_cons_of_mem a (ih (by simp))

theorem listMin_eq_of_mem_iff {l₁ l₂ : List ℚ} (h1 : l₁ ≠ []) (h2 : l₂ ≠ [])
    (h12 : ∀ x ∈ l₁, x ∈ l₂) (h21 : ∀ x ∈ l₂, x ∈ l₁) : listMin l₁ = listMin l₂ :=
  le_antisymm (listMin_le (h21 _ (listMin_mem h2))) (listMin_le (h12 _ (listMin_mem h1)))

theorem listIdxMin_lt_length {l : List ℚ} (h : l ≠ []) : listIdxMin l < l.length :=
  List.indexOf_lt_length.mpr (listMin_mem h)

theorem getD_listIdxMin {l : List ℚ} (h : l ≠ []) : l.getD (listIdxMin l) 0 = listMin l := by
  have hlt : listIdxMin l < l.length := listIdxMin_lt_length h
  rw [List.getD_eq_getElem _ _ hlt]
  exact List.getElem_indexOf hlt

/-! ## Basic facts about the loss terms -/

theorem sum_map_range (n : Nat) (f : Nat → ℚ) :
    ((List.range n).map f).sum = ∑ i in Finset.range n, f i := by
  induction n with
  | zero => simp
  | succ n ih =>
    rw [List.range_succ, List.map_append, List.sum_append, Finset.sum_range_succ, ih]
    simp

theorem pairLoss_of_perm {α : Type} [Inhabited α] (criterion : α → α → Nat → ℚ)
    (ref inf : List α) {K : Nat} {p : List Nat} (hp : p.Perm (List.range K)) (b : Nat) :
    pairLoss criterion ref inf p b =
      (∑ s in Finset.range K,
        criterion (ref.getD s default) (inf.getD (p.getD s 0) default) b) / K := by
  have hlen : p.length = K := by simpa using hp.length_eq
  rw [pairLoss, hlen, sum_map_range]

theorem batchMean_le_batchMean {B : Nat} {f g : Nat → ℚ}
    (h : ∀ b < B, f b ≤ g b) : batchMean B f ≤ batchMean B g := by
  rw [batchMean, batchMean, div_eq_mul_inv, div_eq_mul_inv]
  apply mul_le_mul_of_nonneg_right
  · exact Finset.sum_le_sum (fun b hb => h b (Finset.mem_range.mp hb))
  · positivity

theorem lossesList_ne_nil {α : Type} [Inhabited α] (criterion : α → α → Nat → ℚ)
    (ref inf : List α) (K b : Nat) : lossesList criterion ref inf K b ≠ [] := by
  rw [lossesList, Ne, List.map_eq_nil_iff]
  exact permutationsRange_ne_nil K

theorem mem_lossesList_iff {α : Type} [Inhabited α] {criterion : α → α → Nat → ℚ}
    {ref inf : List α} {K b : Nat} {x : ℚ} :
    x ∈ lossesList criterion ref inf K b ↔
      ∃ p : List Nat, p.Perm (List.range K) ∧ pairLoss criterion ref inf p b = x := by
  simp only [lossesList, List.mem_map, mem_permutationsRange]

theorem length_lossesList {α : Type} [Inhabited α] (criterion : α → α → Nat → ℚ)
    (ref inf : List α) (K b : Nat) :
    (lossesList criterion ref inf K b).length = K.factorial := by
  rw [lossesList, List.length_map, length_permutationsRange]

theorem permutationsRange_getD_mem {K i : Nat} (hi : i < K.factorial) :
    (permutationsRange K).getD i [] ∈ permutationsRange K := by
  have hlen : i < (permutationsRange K).length := by
    rw [length_permutationsRange]; exact hi
  rw [List.getD_eq_getElem _ _ hlen]
  exact List.getElem_mem hlen

theorem lossesList_getD {α : Type} [Inhabited α] (criterion : α → α → Nat → ℚ)
    (ref inf : List α) {K : Nat} (b : Nat) {i : Nat} (hi : i < K.factorial) :
    (lossesList criterion ref inf K b).getD i 0 =
      pairLoss criterion ref inf ((permutationsRange K).getD i []) b := by
  have hlen : i < (permutationsRange K).length := by
    rw [length_permutationsRange]; exact hi
  have hlen2 : i < (lossesList criterion ref inf K b).length := by
    rw [length_lossesList]; exact hi
  rw [List.getD_eq_getElem _ _ hlen2, List.getD_eq_getElem _ _ hlen]
  simp [lossesList]

example : permutationsRange 3 =
    [[0, 1, 2], [0, 2, 1], [1, 0, 2], [1, 2, 0], [2, 0, 1], [2, 1, 0]] := by
  decide

example : listMin [3, 1, 2] = 1 := by decide

example : listIdxMin [3, 1, 1, 2] = 1 := by decide

/-! ## Claim C1 -/

/-- C1: with `use_pit = True` and no supplied permutation, `_permutation_loss`
enumerates exactly the `K!` permutations of `{0..K-1}` in lexicographic order;
it returns the mean over the batch of the per-batch-element minimum over all
permutations `π` of the aggregate distortion
`(1/K) · Σ_s criterion(ref_s, inf_{π(s)})`, together with, for each batch
element, an index into the enumeration whose permutation attains that
minimum. -/
theorem permutation_loss_pit_correct {α : Type} [Inhabited α]
    (B K : Nat) (ref inf : List α) (criterion : α → α → Nat → ℚ)
    (hK : 1 ≤ K) (href : ref.length = K) (hinf : inf.length = K) :
    ((permutationsRange K).length = K.factorial ∧
      (∀ p : List Nat, p ∈ permutationsRange K ↔ p.Perm (List.range K)) ∧
      (permutationsRange K).Pairwise (List.Lex (· < ·))) ∧
    (∃ m : Nat → ℚ,
      (permutationLoss B ref inf criterion none true).1 =
          (∑ b in Finset.range B, m b) / B ∧
      ∀ b : Nat,
        (∃ p : List Nat, p.Perm (List.range K) ∧
          m b = pairLoss criterion ref inf p b) ∧
        (∀ q : List Nat, q.Perm (List.range K) →
          m b ≤ pairLoss criterion ref inf q b) ∧
        (∀ q : List Nat, q.Perm (List.range K) →
          pairLoss criterion ref inf q b =
            (∑ s in Finset.range K,
              criterion (ref.getD s default) (inf.getD (q.getD s 0) default) b) / K)) ∧
    (∃ ix : Nat → Nat,
      (permutationLoss B ref inf criterion none true).2 = Sum.inl ix ∧
      ∀ b : Nat, ix b < K.factorial ∧
        ∀ q : List Nat, q.Perm (List.range K) →
          pairLoss criterion ref inf ((permutationsRange K).getD (ix b) []) b ≤
            pairLoss criterion ref inf q b) := by
  subst href
  refine ⟨⟨length_permutationsRange _, fun p => mem_permutationsRange,
    sorted_permutationsRange _⟩, ?_, ?_⟩
  · refine ⟨fun b => listMin (lossesList criterion ref inf ref.length b), rfl, ?_⟩
    intro b
    refine ⟨?_, ?_, ?_⟩
    · obtain ⟨p, hp, hval⟩ := mem_lossesList_iff.mp
        (listMin_mem (lossesList_ne_nil criterion ref inf ref.length b))
      exact ⟨p, hp, hval.symm⟩
    · intro q hq
      exact listMin_le (mem_lossesList_iff.mpr ⟨q, hq, rfl⟩)
    · intro q hq
      exact pairLoss_of_perm criterion ref inf hq b
  · refine ⟨fun b => listIdxMin (lossesList criterion ref inf ref.length b), rfl, ?_⟩
    intro b
    have hne := lossesList_ne_nil criterion ref inf ref.length b
    have hix : listIdxMin (lossesList criterion ref inf ref.length b) <
        Nat.factorial ref.length := by
      have := listIdxMin_lt_length hne
      rwa [length_lossesList] at this
    refine ⟨hix, ?_⟩
    intro q hq
    have hval : pairLoss criterion ref inf
        ((permutationsRange ref.length).getD
          (listIdxMin (lossesList criterion ref inf ref.length b)) []) b =
        listMin (lossesList criterion ref inf ref.length b) := by
      rw [← lossesList_getD criterion ref inf b hix, getD_listIdxMin hne]
    rw [hval]
    exact listMin_le (mem_lossesList_iff.mpr ⟨q, hq, rfl⟩)

/-- A concrete pairwise criterion (a per-batch-element squared difference)
used to instantiate the permutation-loss theorems at concrete inputs. -/
def sqCriterion (r h : ℚ) (b : Nat) : ℚ :=
  (r - h) ^ 2 + b

theorem permutation_loss_pit_correct_witness :
    1 ≤ 2 ∧ ([(3 : ℚ), 5].length = 2 ∧ [(5 : ℚ), 4].length = 2) ∧
      (permutationsRange 2).length = Nat.factorial 2 :=
  ⟨by decide, ⟨by decide, by decide⟩,
    (permutation_loss_pit_correct 1 2 [(3 : ℚ), 5] [(5 : ℚ), 4]
      (fun r h _ => (r - h) ^ 2) (by decide) (by decide) (by decide)).1.1⟩

/-! ## Claim C4 -/

/-- C4: the PIT-searched loss is at most the loss of the identity
permutation, i.e. at most the batch mean of
`(1/K) · Σ_s criterion(ref_s, inf_s)`. -/
theorem permutation_loss_le_identity {α : Type} [Inhabited α]
    (B K : Nat) (ref inf : List α) (criterion : α → α → Nat → ℚ)
    (hK : 1 ≤ K) (href : ref.length = K) (hinf : inf.length = K) :
    (permutationLoss B ref inf criterion none true).1 ≤
      (∑ b in Finset.range B,
        (∑ s in Finset.range K,
          criterion (ref.getD s default) (inf.getD s default) b) / K) / B := by
  subst href
  have hid : (List.range ref.length).Perm (List.range ref.length) := List.Perm.refl _
  have hres : (permutationLoss B ref inf criterion none true).1 =
      batchMean B (fun b => listMin (lossesList criterion ref inf ref.length b)) := rfl
  rw [hres]
  have hrhs : ∀ b : Nat,
      (∑ s in Finset.range ref.length,
        criterion (ref.getD s default) (inf.getD s default) b) / ref.length =
      pairLoss criterion ref inf (List.range ref.length) b := by
    intro b
    rw [pairLoss_of_perm criterion ref inf hid b]
    congr 1
    apply Finset.sum_congr rfl
    intro s hs
    have hslt : s < ref.length := Finset.mem_range.mp hs
    have hgetd : (List.range ref.length).getD s 0 = s := by
      rw [List.getD_eq_getElem _ _ (by simpa using hslt), List.getElem_range]
    rw [hgetd]
  calc batchMean B (fun b => listMin (lossesList criterion ref inf ref.length b))
      ≤ batchMean B (fun b => pairLoss criterion ref inf (List.range ref.length) b) := by
        apply batchMean_le_batchMean
        intro b _
        exact listMin_le (mem_lossesList_iff.mpr ⟨List.range ref.length, hid, rfl⟩)
    _ = (∑ b in Finset.range B, (∑ s in Finset.range ref.length,
          criterion (ref.getD s default) (inf.getD s default) b) / ref.length) / B := by
        rw [batchMean]
        congr 1
        apply Finset.sum_congr rfl
        intro b _
        exact (hrhs b).symm

theorem permutation_loss_le_identity_witness :
    1 ≤ 2 ∧ ([(3 : ℚ), 5].length = 2 ∧ [(5 : ℚ), 3].length = 2) ∧
      (permutationLoss 1 [(3 : ℚ), 5] [(5 : ℚ), 3] sqCriterion none true).1 ≤
        (∑ b in Finset.range 1,
          (∑ s in Finset.range 2,
            sqCriterion ([(3 : ℚ), 5].getD s default)
              ([(5 : ℚ), 3].getD s default) b) / 2) / 1 :=
  ⟨by decide, ⟨by decide, by decide⟩,
    permutation_loss_le_identity 1 2 [(3 : ℚ), 5] [(5 : ℚ), 3] sqCriterion
      (by decide) (by decide) (by decide)⟩

/-! ## Claim C5 -/

/-- C5: with a supplied permutation-index function `pm` (and `use_pit = True`),
`_permutation_loss` returns the batch mean of the aggregate distortion of
exactly the permutation selected per batch element by `pm` — no minimisation
over other permutations enters the result — and the supplied `pm` is returned
unchanged. -/
theorem permutation_loss_fixed_perm {α : Type} [Inhabited α]
    (B K : Nat) (ref inf : List α) (criterion : α → α → Nat → ℚ) (pm : Nat → Nat)
    (hK : 1 ≤ K) (href : ref.length = K) (hinf : inf.length = K)
    (hpm : ∀ b < B, pm b < K.factorial) :
    (permutationLoss B ref inf criterion (some pm) true).2 = Sum.inl pm ∧
    (permutationLoss B ref inf criterion (some pm) true).1 =
      (∑ b in Finset.range B,
        (∑ s in Finset.range K,
          criterion (ref.getD s default)
            (inf.getD (((permutationsRange K).getD (pm b) []).getD s 0) default) b)
          / K) / B := by
  subst href
  refine ⟨rfl, ?_⟩
  have hres : (permutationLoss B ref inf criterion (some pm) true).1 =
      batchMean B (fun b => (lossesList criterion ref inf ref.length b).getD (pm b) 0) := rfl
  rw [hres, batchMean]
  congr 1
  apply Finset.sum_congr rfl
  intro b hb
  have hpmb := hpm b (Finset.mem_range.mp hb)
  rw [lossesList_getD criterion ref inf b hpmb]
  exact pairLoss_of_perm criterion ref inf
    (mem_permutationsRange.mp (permutationsRange_getD_mem hpmb)) b

theorem permutation_loss_fixed_perm_witness :
    1 ≤ 2 ∧ (∀ b < 1, (fun _ : Nat => 1) b < Nat.factorial 2) ∧
      (permutationLoss 1 [(3 : ℚ), 5] [(5 : ℚ), 3] sqCriterion
        (some (fun _ => 1)) true).2 = Sum.inl (fun _ => 1) :=
  ⟨by decide, fun b _ => by norm_num [Nat.factorial],
    (permutation_loss_fixed_perm 1 2 [(3 : ℚ), 5] [(5 : ℚ), 3] sqCriterion (fun _ => 1)
      (by decide) (by decide) (by decide) (fun b _ => by norm_num [Nat.factorial])).1⟩

/-! ## Claim C9 -/

/-- Composition of permutation lists: entry `s` of `composePerm σ p` is
`σ[p[s]]`, so permuting the reindexed hypothesis list `inf ∘ σ` by `p`
equals permuting the original list by `composePerm σ p`. -/
def composePerm (σ p : List Nat) : List Nat :=
  p.map (fun s => σ.getD s 0)

theorem range_map_getD {K : Nat} {σ : List Nat} (hσ : σ.Perm (List.range K)) :
    (List.range K).map (fun s => σ.getD s 0) = σ := by
  have hσlen : σ.length = K := by simpa using hσ.length_eq
  apply List.ext_getElem
  · simp [hσlen]
  · intro i h1 h2
    simp only [List.getElem_map, List.getElem_range]
    exact List.getD_eq_getElem σ 0 h2

theorem composePerm_perm {K : Nat} {σ p : List Nat} (hσ : σ.Perm (List.range K))
    (hp : p.Perm (List.range K)) : (composePerm σ p).Perm (List.range K) := by
  have h1 : (composePerm σ p).Perm σ := by
    have := hp.map (fun s => σ.getD s 0)
    rwa [range_map_getD hσ] at this
  exact h1.trans hσ

theorem indexOf_map_perm {K : Nat} {σ q : List Nat} (hσ : σ.Perm (List.range K))
    (hq : q.Perm (List.range K)) :
    (q.map (fun t => σ.indexOf t)).Perm (List.range K) := by
  have hσlen : σ.length = K := by simpa using hσ.length_eq
  have hrange : ((List.range K).map (fun t => σ.indexOf t)).Perm (List.range K) := by
    have hnodup : ((List.range K).map (fun t => σ.indexOf t)).Nodup := by
      apply (List.nodup_range K).map_on
      intro t1 h1 t2 h2 heq
      have hm1 : t1 ∈ σ := hσ.mem_iff.mpr h1
      have hm2 : t2 ∈ σ := hσ.mem_iff.mpr h2
      have hi1 : σ.indexOf t1 < σ.length := List.indexOf_lt_length.mpr hm1
      have hi2 : σ.indexOf t2 < σ.length := List.indexOf_lt_length.mpr hm2
      have : σ[σ.indexOf t1] = σ[σ.indexOf t2] := by
        congr 1
      rw [List.getElem_indexOf hi1, List.getElem_indexOf hi2] at this
      exact this
    have hsubset : ((List.range K).map (fun t => σ.indexOf t)) ⊆ List.range K := by
      intro x hx
      obtain ⟨t, ht, rfl⟩ := List.mem_map.mp hx
      have hm : t ∈ σ := hσ.mem_iff.mpr ht
      have := List.indexOf_lt_length.mpr hm
      rw [hσlen] at this
      simpa using this
    have hsub : List.Subperm ((List.range K).map (fun t => σ.indexOf t)) (List.range K) :=
      List.subperm_of_subset hnodup hsubset
    exact hsub.perm_of_length_le (by simp)
  exact (hq.map (fun t => σ.indexOf t)).trans hrange

theorem composePerm_indexOf {K : Nat} {σ q : List Nat} (hσ : σ.Perm (List.range K))
    (hq : q.Perm (List.range K)) :
    composePerm σ (q.map (fun t => σ.indexOf t)) = q := by
  rw [composePerm, List.map_map]
  apply List.ext_getElem
  · simp
  · intro i h1 h2
    simp only [List.getElem_map, Function.comp_apply]
    have hmem : q[i] ∈ σ := hσ.mem_iff.mpr (hq.subset (List.getElem_mem h2))
    have hlt : σ.indexOf q[i] < σ.length := List.indexOf_lt_length.mpr hmem
    rw [List.getD_eq_getElem _ _ hlt]
    exact List.getElem_indexOf hlt

theorem pairLoss_reorder {α : Type} [Inhabited α] (criterion : α → α → Nat → ℚ)
    (ref inf : List α) {K : Nat} {σ p : List Nat} (hσ : σ.Perm (List.range K))
    (hp : p.Perm (List.range K)) (b : Nat) :
    pairLoss criterion ref (σ.map (fun t => inf.getD t default)) p b =
      pairLoss criterion ref inf (composePerm σ p) b := by
  have hσlen : σ.length = K := by simpa using hσ.length_eq
  rw [pairLoss, pairLoss, composePerm, List.length_map, sum_map_range, sum_map_range]
  congr 1
  apply Finset.sum_congr rfl
  intro s hs
  have hslt : s < p.length := Finset.mem_range.mp hs
  have hps : p.getD s 0 = p[s] := List.getD_eq_getElem _ _ hslt
  have hpsK : p[s] < K := by
    have : p[s] ∈ List.range K := hp.subset (List.getElem_mem hslt)
    simpa using this
  have hσl : p[s] < σ.length := by rw [hσlen]; exact hpsK
  have hmap1 : (σ.map (fun t => inf.getD t default)).getD (p.getD s 0) default =
      inf.getD σ[p[s]] default := by
    rw [hps, List.getD_eq_getElem _ _ (by simpa using hσl), List.getElem_map]
  have hmap2 : (p.map (fun j => σ.getD j 0)).getD s 0 = σ[p[s]] := by
    rw [List.getD_eq_getElem _ _ (by simpa using hslt), List.getElem_map]
    exact List.getD_eq_getElem σ 0 hσl
  rw [hmap1, hmap2]

theorem lossesList_reorder {α : Type} [Inhabited α] (criterion : α → α → Nat → ℚ)
    (ref inf : List α) {K : Nat} {σ : List Nat} (hσ : σ.Perm (List.range K)) (b : Nat) :
    listMin (lossesList criterion ref (σ.map (fun t => inf.getD t default)) K b) =
      listMin (lossesList criterion ref inf K b) := by
  apply listMin_eq_of_mem_iff (lossesList_ne_nil _ _ _ _ _) (lossesList_ne_nil _ _ _ _ _)
  · intro x hx
    obtain ⟨p, hp, hval⟩ := mem_lossesList_iff.mp hx
    refine mem_lossesList_iff.mpr ⟨composePerm σ p, composePerm_perm hσ hp, ?_⟩
    rw [← pairLoss_reorder criterion ref inf hσ hp b, hval]
  · intro x hx
    obtain ⟨q, hq, hval⟩ := mem_lossesList_iff.mp hx
    refine mem_lossesList_iff.mpr ⟨q.map (fun t => σ.indexOf t), indexOf_map_perm hσ hq, ?_⟩
    rw [pairLoss_reorder criterion ref inf hσ (indexOf_map_perm hσ hq) b,
      composePerm_indexOf hσ hq, hval]

/-- C9: reordering the `K` hypothesis signals by a permutation `σ` and
re-running the PIT search yields the same minimum loss; the returned indices
differ correspondingly, in that composing `σ` with the permutation selected
for the reordered problem minimises the original problem. -/
theorem permutation_loss_reorder_invariant {α : Type} [Inhabited α]
    (B K : Nat) (ref inf : List α) (criterion : α → α → Nat → ℚ) (σ : List Nat)
    (hσ : σ.Perm (List.range K)) (href : ref.length = K) (hinf : inf.length = K) :
    (permutationLoss B ref (σ.map (fun t => inf.getD t default)) criterion none true).1 =
      (permutationLoss B ref inf criterion none true).1 ∧
    (∃ ixr : Nat → Nat,
      (permutationLoss B ref (σ.map (fun t => inf.getD t default))
          criterion none true).2 = Sum.inl ixr ∧
      ∀ b : Nat, ∀ q : List Nat, q.Perm (List.range K) →
        pairLoss criterion ref inf
            (composePerm σ ((permutationsRange K).getD (ixr b) [])) b ≤
          pairLoss criterion ref inf q b) := by
  subst href
  constructor
  · have h1 : (permutationLoss B ref (σ.map (fun t => inf.getD t default))
        criterion none true).1 =
        batchMean B (fun b => listMin
          (lossesList criterion ref (σ.map (fun t => inf.getD t default))
            ref.length b)) := rfl
    have h2 : (permutationLoss B ref inf criterion none true).1 =
        batchMean B (fun b => listMin (lossesList criterion ref inf ref.length b)) := rfl
    rw [h1, h2, batchMean, batchMean]
    congr 1
    apply Finset.sum_congr rfl
    intro b _
    exact lossesList_reorder criterion ref inf hσ b
  · refine ⟨fun b => listIdxMin
      (lossesList criterion ref (σ.map (fun t => inf.getD t default)) ref.length b),
      rfl, ?_⟩
    intro b q hq
    have hne := lossesList_ne_nil criterion ref
      (σ.map (fun t => inf.getD t default)) ref.length b
    have hix : listIdxMin (lossesList criterion ref
        (σ.map (fun t => inf.getD t default)) ref.length b) <
        Nat.factorial ref.length := by
      have := listIdxMin_lt_length hne
      rwa [length_lossesList] at this
    have hpr : ((permutationsRange ref.length).getD
        (listIdxMin (lossesList criterion ref
          (σ.map (fun t => inf.getD t default)) ref.length b)) []).Perm
        (List.range ref.length) :=
      mem_permutationsRange.mp (permutationsRange_getD_mem hix)
    have hval : pairLoss criterion ref (σ.map (fun t => inf.getD t default))
        ((permutationsRange ref.length).getD
          (listIdxMin (lossesList criterion ref
            (σ.map (fun t => inf.getD t default)) ref.length b)) []) b =
        listMin (lossesList criterion ref
          (σ.map (fun t => inf.getD t default)) ref.length b) := by
      rw [← lossesList_getD criterion ref
        (σ.map (fun t => inf.getD t default)) b hix, getD_listIdxMin hne]
    rw [← pairLoss_reorder criterion ref inf hσ hpr b, hval,
      lossesList_reorder criterion ref inf hσ b]
    exact listMin_le (mem_lossesList_iff.mpr ⟨q, hq, rfl⟩)

theorem permutation_loss_reorder_invariant_witness :
    ([1, 0] : List Nat).Perm (List.range 2) ∧
      (permutationLoss 1 [(3 : ℚ), 5]
          (([1, 0] : List Nat).map (fun t => [(5 : ℚ), 3].getD t default))
          sqCriterion none true).1 =
        (permutationLoss 1 [(3 : ℚ), 5] [(5 : ℚ), 3] sqCriterion none true).1 :=
  ⟨by decide,
    (permutation_loss_reorder_invariant 1 2 [(3 : ℚ), 5] [(5 : ℚ), 3] sqCriterion
      [1, 0] (by decide) (by decide) (by decide)).1⟩

/-! ## Claim C2: `_create_mask_label` -/

/-- `torch.clamp(x, min=lo, max=hi)` on a real scalar. -/
noncomputable def torchClamp (lo hi x : ℝ) : ℝ :=
  min (max x lo) hi

/-- The `eps` constant of `_create_mask_label` (`10e-8` in the source). -/
noncomputable def maskEps : ℝ :=
  10 / 10 ^ 8

/-- Python values, as needed to give the comparison `mask_label == "NPSM"`
(a `list` object compared against a `str` object) its Python semantics. -/
inductive PyVal (α : Type) : Type where
  | pstr : String → PyVal α
  | plist : List α → PyVal α

/-- Python `==` on `PyVal`: values of different builtin types (a `list` and a
`str`) always compare unequal; same-typed values compare componentwise, a
`list` comparison consulting the supplied element comparison. -/
def pyValEq {α : Type} (elemEq : α → α → Bool) : PyVal α → PyVal α → Bool
  | PyVal.pstr a, PyVal.pstr b => a == b
  | PyVal.plist a, PyVal.plist b =>
    a.length == b.length && (a.zip b).all (fun p => elemEq p.1 p.2)
  | _, _ => false

/-- One loop iteration of `_create_mask_label`
(`espnet2/enh/espnet_model.py`): the mask computed for one reference spectrum
`r`, given the mixture spectrum, the full reference list (used by `IBM` and
`IRM`), and the accumulator `mask_label` built so far — which is what the
`NPSM` branch condition compares (as a Python list) against the string
`"NPSM"`; the element comparison passed to `pyValEq` is never consulted in a
list-versus-string comparison.  Spectra are `ℂ`-valued and masks `ℝ`-valued,
elementwise over an index type `ι` of time-frequency bins.  `none` models the
`assert mask is not None` failure. -/
noncomputable def maskFor {ι : Type} (mask_type : String) (mix_spec : ι → ℂ)
    (ref_spec : List (ι → ℂ)) (mask_label : List (ι → ℝ)) (r : ι → ℂ) :
    Option (ι → ℝ) :=
  if mask_type = "IBM" then
    some (fun i =>
      (ref_spec.map (fun n =>
        if Complex.abs (n i) ≤ Complex.abs (r i) then (1 : ℝ) else 0)).prod)
  else if mask_type = "IRM" then
    some (fun i => Complex.abs (r i) /
      ((ref_spec.map (fun n => Complex.abs (n i))).sum + maskEps))
  else if mask_type = "IAM" then
    some (fun i => torchClamp 0 1
      (Complex.abs (r i) / (Complex.abs (mix_spec i) + maskEps)))
  else if mask_type = "PSM" ∨ mask_type = "NPSM" then
    let mask := fun i =>
      let phase_r := r i / (((Complex.abs (r i) + maskEps : ℝ)) : ℂ)
      let phase_mix := mix_spec i / (((Complex.abs (mix_spec i) + maskEps : ℝ)) : ℂ)
      let cos_theta := phase_r.re * phase_mix.re + phase_r.im * phase_mix.im
      Complex.abs (r i) / (Complex.abs (mix_spec i) + maskEps) * cos_theta
    some (if pyValEq (fun _ _ => false) (PyVal.plist mask_label) (PyVal.pstr "NPSM")
      then fun i => torchClamp 0 1 (mask i)
      else fun i => torchClamp (-1) 1 (mask i))
  else if mask_type = "PSM^2" then
    let mask := fun i =>
      let phase_r := r i / (((Complex.abs (r i) + maskEps : ℝ)) : ℂ)
      let phase_mix := mix_spec i / (((Complex.abs (mix_spec i) + maskEps : ℝ)) : ℂ)
      let cos_theta := phase_r.re * phase_mix.re + phase_r.im * phase_mix.im
      Complex.abs (r i) ^ 2 / (Complex.abs (mix_spec i) ^ 2 + maskEps) * cos_theta
    some (fun i => torchClamp (-1) 1 (mask i))
  else none

/-- The accumulation loop of `_create_mask_label` over the reference spectra;
the accumulator is threaded so that the `NPSM` comparison sees exactly the
Python `mask_label` list built so far. -/
noncomputable def createMaskLoop {ι : Type} (mask_type : String) (mix_spec : ι → ℂ)
    (ref_spec : List (ι → ℂ)) :
    List (ι → ℂ) → List (ι → ℝ) → Option (List (ι → ℝ))
  | [], acc => some acc
  | r :: rest, acc =>
    match maskFor mask_type mix_spec ref_spec acc r with
    | none => none
    | some mask => createMaskLoop mask_type mix_spec ref_spec rest (acc ++ [mask])

/-- Shallow embedding of `ESPnetEnhancementModel._create_mask_label`
(`espnet2/enh/espnet_model.py`); `none` models the `AssertionError` raised for
an unsupported `mask_type`. -/
noncomputable def createMaskLabel {ι : Type} (mix_spec : ι → ℂ)
    (ref_spec : List (ι → ℂ)) (mask_type : String) : Option (List (ι → ℝ)) :=
  if mask_type ∈ ["IBM", "IRM", "IAM", "PSM", "NPSM", "PSM^2"] then
    createMaskLoop mask_type mix_spec ref_spec ref_spec []
  else none

theorem maskFor_NPSM_eq_PSM {ι : Type} (mix_spec : ι → ℂ) (ref_spec : List (ι → ℂ))
    (mask_label : List (ι → ℝ)) (r : ι → ℂ) :
    maskFor "NPSM" mix_spec ref_spec mask_label r =
      maskFor "PSM" mix_spec ref_spec mask_label r := rfl

theorem createMaskLoop_NPSM_eq_PSM {ι : Type} (mix_spec : ι → ℂ)
    (ref_spec : List (ι → ℂ)) :
    ∀ (todo : List (ι → ℂ)) (acc : List (ι → ℝ)),
      createMaskLoop "NPSM" mix_spec ref_spec todo acc =
        createMaskLoop "PSM" mix_spec ref_spec todo acc := by
  intro todo
  induction todo with
  | nil => intro acc; rfl
  | cons r rest ih =>
    intro acc
    rw [createMaskLoop, createMaskLoop, maskFor_NPSM_eq_PSM]
    cases maskFor "PSM" mix_spec ref_spec acc r with
    | none => rfl
    | some mask => exact ih (acc ++ [mask])

/-- C2: since the branch condition `mask_label == "NPSM"` compares the
accumulator list against a string, it is always false, so for mask type
`"NPSM"` the phase-sensitive mask is clamped to `[-1, 1]` exactly as for
`"PSM"` on every input; it is never clamped to `[0, 1]`, as witnessed by an
input spectrum pair whose produced mask value is strictly negative. -/
theorem create_mask_label_NPSM_behaves_like_PSM :
    (∀ (ι : Type) (mix_spec : ι → ℂ) (ref_spec : List (ι → ℂ)),
      createMaskLabel mix_spec ref_spec "NPSM" =
        createMaskLabel mix_spec ref_spec "PSM") ∧
    (∃ mask : Unit → ℝ,
      createMaskLabel (fun _ : Unit => ((1 : ℝ) : ℂ))
          [fun _ : Unit => ((-1 : ℝ) : ℂ)] "NPSM" = some [mask] ∧ mask () < 0) := by
  constructor
  · intro ι mix_spec ref_spec
    rw [createMaskLabel, createMaskLabel, if_pos (by decide), if_pos (by decide)]
    exact createMaskLoop_NPSM_eq_PSM mix_spec ref_spec ref_spec []
  · refine ⟨_, rfl, ?_⟩
    have habs1 : Complex.abs ((1 : ℝ) : ℂ) = 1 := by
      rw [Complex.abs_ofReal]; norm_num
    have habsm1 : Complex.abs ((-1 : ℝ) : ℂ) = 1 := by
      rw [Complex.abs_ofReal]; norm_num
    simp only [habs1, habsm1, maskEps]
    rw [show (((-1 : ℝ) : ℂ) / (((1 : ℝ) + 10 / 10 ^ 8 : ℝ) : ℂ)) =
        (((-1 : ℝ) / ((1 : ℝ) + 10 / 10 ^ 8) : ℝ) : ℂ) by
      rw [Complex.ofReal_div],
      show (((1 : ℝ) : ℂ) / (((1 : ℝ) + 10 / 10 ^ 8 : ℝ) : ℂ)) =
        (((1 : ℝ) / ((1 : ℝ) + 10 / 10 ^ 8) : ℝ) : ℂ) by
      rw [Complex.ofReal_div]]
    simp only [Complex.ofReal_re, Complex.ofReal_im]
    rw [torchClamp]
    have hval : (1 : ℝ) / (1 + 10 / 10 ^ 8) *
        (-1 / (1 + 10 / 10 ^ 8) * (1 / (1 + 10 / 10 ^ 8)) +
          0 * 0) < 0 := by norm_num
    calc min (max ((1 : ℝ) / (1 + 10 / 10 ^ 8) *
            (-1 / (1 + 10 / 10 ^ 8) * (1 / (1 + 10 / 10 ^ 8)) + 0 * 0)) (-1)) 1
        ≤ max ((1 : ℝ) / (1 + 10 / 10 ^ 8) *
            (-1 / (1 + 10 / 10 ^ 8) * (1 / (1 + 10 / 10 ^ 8)) + 0 * 0)) (-1) :=
          min_le_left _ _
      _ < 0 := by
          rw [max_lt_iff]
          exact ⟨hval, by norm_num⟩

/-! ## Claim C6: `DNN_Beamformer.__init__` -/

/-- The configuration a `DNN_Beamformer` stores at construction
(`espnet2/asr/frontend/nets/dnn_beamformer.py`); the mask estimator and the
attention module are external collaborators and carry no validated state. -/
structure DNNBeamformerConfig where
  nmask : Nat
  ref_channel : Int
  beamformer_type : String
  eps : ℚ
  btaps : Nat
  bdelay : Nat

/-- Shallow embedding of the validation in `DNN_Beamformer.__init__`: a
`beamformer_type` outside the supported triple raises `ValueError` inside the
constructor, so no configuration value is ever produced for it (and no
`forward` call can run on it). -/
def mkDNNBeamformer (bnmask : Nat) (ref_channel : Int) (beamformer_type : String)
    (eps : ℚ) (btaps bdelay : Nat) : Except String DNNBeamformerConfig :=
  if beamformer_type ∉ ["mvdr", "mpdr", "wpd"] then
    Except.error ("Not supporting beamformer_type=" ++ beamformer_type)
  else
    Except.ok ⟨bnmask, ref_channel, beamformer_type, eps, btaps, bdelay⟩

/-- C6: construction rejects every `beamformer_type` outside
`{mvdr, mpdr, wpd}` with a `ValueError` naming the offending type, and for
each of the three supported values succeeds (storing the configuration
unchanged), so an unsupported type never reaches filter design. -/
theorem dnn_beamformer_init_validates (bnmask : Nat) (ref_channel : Int)
    (beamformer_type : String) (eps : ℚ) (btaps bdelay : Nat) :
    (beamformer_type ∉ (["mvdr", "mpdr", "wpd"] : List String) →
      mkDNNBeamformer bnmask ref_channel beamformer_type eps btaps bdelay =
        Except.error ("Not supporting beamformer_type=" ++ beamformer_type)) ∧
    (beamformer_type ∈ (["mvdr", "mpdr", "wpd"] : List String) →
      mkDNNBeamformer bnmask ref_channel beamformer_type eps btaps bdelay =
        Except.ok ⟨bnmask, ref_channel, beamformer_type, eps, btaps, bdelay⟩) := by
  constructor
  · intro h
    rw [mkDNNBeamformer, if_pos h]
  · intro h
    rw [mkDNNBeamformer, if_neg (not_not_intro h)]

theorem dnn_beamformer_init_validates_witness :
    mkDNNBeamformer 2 (-1) "gev" 1 5 3 =
        Except.error ("Not supporting beamformer_type=" ++ "gev") ∧
      mkDNNBeamformer 2 (-1) "mvdr" 1 5 3 =
        Except.ok ⟨2, -1, "mvdr", 1, 5, 3⟩ :=
  ⟨(dnn_beamformer_init_validates 2 (-1) "gev" 1 5 3).1 (by decide),
   (dnn_beamformer_init_validates 2 (-1) "mvdr" 1 5 3).2 (by decide)⟩

/-! ## Claim C7: missing noise reference -/

/-- The noise branch of `ESPnetEnhancementModel.forward`
(`espnet2/enh/espnet_model.py`; `ESPnetFrontendModel.forward` has the same
logic): when the predicted-mask dictionary contains the key `"noise1"`, a
missing noise reference raises a `ValueError` naming the missing data before
the noise loss term is computed.  The mask dictionary is abstracted to its
key list, the noise reference to an `Option` over an arbitrary payload type,
and the noise-loss computation to a function `noiseLoss` that the branch
evaluates only once a noise reference is at hand. -/
def noiseBranch {ν : Type} (mask_pre_keys : List String) (noise_ref : Option ν)
    (tf_loss : ℚ) (noiseLoss : ν → ℚ) : Except String ℚ :=
  if "noise1" ∈ mask_pre_keys then
    match noise_ref with
    | none => Except.error
        ("No noise reference for training!\n" ++
         "Please specify \"--use_noise_ref true\" in run.sh")
    | some nr => Except.ok (tf_loss + noiseLoss nr)
  else
    Except.ok tf_loss

/-- C7: whenever the predicted masks contain the key `"noise1"` but no noise
reference was supplied, `forward` raises a `ValueError` whose message
identifies the missing noise reference; the outcome is independent of the
noise-loss computation, which is never evaluated. -/
theorem forward_missing_noise_ref_raises {ν : Type}
    (mask_pre_keys : List String) (tf_loss : ℚ) (noiseLoss : ν → ℚ)
    (h : "noise1" ∈ mask_pre_keys) :
    noiseBranch mask_pre_keys (none : Option ν) tf_loss noiseLoss =
      Except.error
        ("No noise reference for training!\n" ++
         "Please specify \"--use_noise_ref true\" in run.sh") ∧
    (∀ noiseLoss2 : ν → ℚ,
      noiseBranch mask_pre_keys (none : Option ν) tf_loss noiseLoss =
        noiseBranch mask_pre_keys (none : Option ν) tf_loss noiseLoss2) := by
  constructor
  · rw [noiseBranch, if_pos h]
  · intro noiseLoss2
    rw [noiseBranch, noiseBranch, if_pos h]

theorem forward_missing_noise_ref_raises_witness :
    ("noise1" ∈ ["spk1", "noise1"]) ∧
      noiseBranch ["spk1", "noise1"] (none : Option Unit) 0 (fun _ => 1) =
        Except.error
          ("No noise reference for training!\n" ++
           "Please specify \"--use_noise_ref true\" in run.sh") :=
  ⟨by decide,
    (forward_missing_noise_ref_raises ["spk1", "noise1"] 0 (fun _ => 1) (by decide)).1⟩

/-! ## Claim C3: interference covariances in `DNN_Beamformer.forward` -/

theorem getD_add_sum_eraseIdx {M : Type} [AddCommMonoid M] :
    ∀ (l : List M) (i : Nat), i < l.length → ∀ d : M,
      l.getD i d + (l.eraseIdx i).sum = l.sum := by
  intro l
  induction l with
  | nil => intro i hi; simp at hi
  | cons a t ih =>
    intro i hi d
    cases i with
    | zero => simp
    | succ i =>
      have hit : i < t.length := by simpa using hi
      rw [List.getD_cons_succ, List.eraseIdx_cons_succ, List.sum_cons, List.sum_cons,
        ← ih i hit d]
      exact add_left_comm _ _ _

theorem sum_eq_sum_getD {M : Type} [AddCommMonoid M] :
    ∀ (l : List M) (d : M), l.sum = ∑ j in Finset.range l.length, l.getD j d := by
  intro l
  induction l with
  | nil => intro d; simp
  | cons a t ih =>
    intro d
    rw [List.sum_cons, List.length_cons, Finset.sum_range_succ', ih d]
    simp [add_comm]

theorem sum_eraseIdx_eq {M : Type} [AddCommGroup M] (l : List M) (i : Nat)
    (hi : i < l.length) (d : M) :
    (l.eraseIdx i).sum = ∑ j in (Finset.range l.length).erase i, l.getD j d := by
  have h1 := getD_add_sum_eraseIdx l i hi d
  have h3 : ∑ j in (Finset.range l.length).erase i, l.getD j d =
      (∑ j in Finset.range l.length, l.getD j d) - l.getD i d :=
    Finset.sum_erase_eq_sub (Finset.mem_range.mpr hi)
  rw [h3, ← sum_eq_sum_getD l d, ← h1]
  abel

/-- The multi-speaker (more than two masks) branch of `DNN_Beamformer.forward`
(`espnet2/asr/frontend/nets/dnn_beamformer.py`), reduced to the covariance
pairs it passes to `apply_beamforming`: for each speaker `i` the pair is the
target (speech) covariance and the interference covariance `psd_n`.  The
covariance primitives live outside `src/` and are taken as parameters:
`getPSD` is `get_power_spectral_density_matrix`, `obsCov` the observed
covariance `einsum('...ct,...et->...ce', [data, data.conj()])`, and `wpdCov`
the inverse-power-weighted expanded covariance WPD derives from a speaker's
own masked power.  `data` is the permuted spectrum, `speechMasks` the masks
`masks[:-1]`, `noiseMask` the mask `masks[-1]`.  The `pop`/`insert` pair in
the source restores `psd_speeches` around each iteration, so the loop is the
map below; a `beamformer_type` outside the three supported values is rejected
at construction (`mkDNNBeamformer`) and never reaches this branch. -/
def multiSpkDesign {D MK M : Type} [AddCommMonoid M] (getPSD : D → MK → M)
    (obsCov : D → M) (wpdCov : D → MK → M) (beamformer_type : String) (data : D)
    (speechMasks : List MK) (noiseMask : MK) : List (M × M) :=
  let psd_speeches := speechMasks.map (getPSD data)
  let psd_n_wpd := speechMasks.map (wpdCov data)
  (List.range speechMasks.length).map (fun i =>
    let psd_speech := psd_speeches.getD i 0
    if beamformer_type = "mvdr" then
      (psd_speech, (psd_speeches.eraseIdx i).sum + getPSD data noiseMask)
    else if beamformer_type = "mpdr" then
      (psd_speech, obsCov data)
    else
      (psd_speech, psd_n_wpd.getD i 0))

/-- C3 (amended): in the multi-speaker branch every speaker's filter is
designed with its own speech PSD as the target covariance, but the claimed
interference construction — the sum of all other speakers' PSDs plus the
noise PSD — holds only for `mvdr`; for `mpdr` the interference is the
unweighted observed-signal covariance (no per-speaker sum), and for `wpd` it
is the inverse-power-weighted expanded covariance derived from speaker `i`'s
own masked power. -/
theorem multi_speaker_interference_covariances {D MK M : Type} [AddCommGroup M]
    (getPSD : D → MK → M) (obsCov : D → M) (wpdCov : D → MK → M)
    (beamformer_type : String) (data : D) (speechMasks : List MK) (noiseMask : MK)
    (_hK : 2 ≤ speechMasks.length) :
    (multiSpkDesign getPSD obsCov wpdCov beamformer_type data speechMasks
        noiseMask).length = speechMasks.length ∧
    ∀ i, i < speechMasks.length →
      ((multiSpkDesign getPSD obsCov wpdCov beamformer_type data speechMasks
          noiseMask).getD i (0, 0)).1 =
        getPSD data (speechMasks.getD i noiseMask) ∧
      (beamformer_type = "mvdr" →
        ((multiSpkDesign getPSD obsCov wpdCov beamformer_type data speechMasks
            noiseMask).getD i (0, 0)).2 =
          (∑ j in (Finset.range speechMasks.length).erase i,
            getPSD data (speechMasks.getD j noiseMask)) + getPSD data noiseMask) ∧
      (beamformer_type = "mpdr" →
        ((multiSpkDesign getPSD obsCov wpdCov beamformer_type data speechMasks
            noiseMask).getD i (0, 0)).2 = obsCov data) ∧
      (beamformer_type = "wpd" →
        ((multiSpkDesign getPSD obsCov wpdCov beamformer_type data speechMasks
            noiseMask).getD i (0, 0)).2 =
          wpdCov data (speechMasks.getD i noiseMask)) := by
  have hpsd : ∀ j, j < speechMasks.length →
      (speechMasks.map (getPSD data)).getD j 0 =
        getPSD data (speechMasks.getD j noiseMask) := by
    intro j hj
    rw [List.getD_eq_getElem _ _ (by simpa using hj), List.getElem_map,
      List.getD_eq_getElem _ _ hj]
  have hwpd : ∀ j, j < speechMasks.length →
      (speechMasks.map (wpdCov data)).getD j 0 =
        wpdCov data (speechMasks.getD j noiseMask) := by
    intro j hj
    rw [List.getD_eq_getElem _ _ (by simpa using hj), List.getElem_map,
      List.getD_eq_getElem _ _ hj]
  constructor
  · simp [multiSpkDesign]
  · intro i hi
    have hgd : (multiSpkDesign getPSD obsCov wpdCov beamformer_type data speechMasks
        noiseMask).getD i (0, 0) =
        (if beamformer_type = "mvdr" then
          ((speechMasks.map (getPSD data)).getD i 0,
            ((speechMasks.map (getPSD data)).eraseIdx i).sum + getPSD data noiseMask)
        else if beamformer_type = "mpdr" then
          ((speechMasks.map (getPSD data)).getD i 0, obsCov data)
        else
          ((speechMasks.map (getPSD data)).getD i 0,
            (speechMasks.map (wpdCov data)).getD i 0)) := by
      show ((List.range speechMasks.length).map (fun i =>
          if beamformer_type = "mvdr" then
            ((speechMasks.map (getPSD data)).getD i 0,
              ((speechMasks.map (getPSD data)).eraseIdx i).sum + getPSD data noiseMask)
          else if beamformer_type = "mpdr" then
            ((speechMasks.map (getPSD data)).getD i 0, obsCov data)
          else
            ((speechMasks.map (getPSD data)).getD i 0,
              (speechMasks.map (wpdCov data)).getD i 0))).getD i (0, 0) = _
      rw [List.getD_eq_getElem _ _ (by simpa using hi), List.getElem_map,
        List.getElem_range]
    have hsum : ((speechMasks.map (getPSD data)).eraseIdx i).sum =
        ∑ j in (Finset.range speechMasks.length).erase i,
          getPSD data (speechMasks.getD j noiseMask) := by
      rw [sum_eraseIdx_eq (speechMasks.map (getPSD data)) i (by simpa using hi) 0,
        List.length_map]
      apply Finset.sum_congr rfl
      intro j hj
      exact hpsd j (Finset.mem_range.mp (Finset.mem_of_mem_erase hj))
    by_cases h1 : beamformer_type = "mvdr"
    · rw [hgd, if_pos h1]
      refine ⟨hpsd i hi, fun _ => by rw [hsum], fun h2 => ?_, fun h3 => ?_⟩
      · rw [h1] at h2; exact absurd h2 (by decide)
      · rw [h1] at h3; exact absurd h3 (by decide)
    · by_cases h2 : beamformer_type = "mpdr"
      · rw [hgd, if_neg h1, if_pos h2]
        refine ⟨hpsd i hi, fun h3 => absurd h3 h1, fun _ => rfl, fun h3 => ?_⟩
        rw [h2] at h3; exact absurd h3 (by decide)
      · rw [hgd, if_neg h1, if_neg h2]
        exact ⟨hpsd i hi, fun h3 => absurd h3 h1, fun h3 => absurd h3 h2,
          fun _ => hwpd i hi⟩

theorem multi_speaker_interference_covariances_witness :
    2 ≤ ([(1 : ℚ), 2] : List ℚ).length ∧
      ((multiSpkDesign (fun _ m => m) (fun _ => (5 : ℚ)) (fun _ m => m + 1) "mvdr"
          () [(1 : ℚ), 2] 7).getD 0 (0, 0)).2 =
        (∑ j in (Finset.range 2).erase 0, ([(1 : ℚ), 2].getD j 7)) + 7 :=
  ⟨by decide,
    ((multi_speaker_interference_covariances (fun _ m => m) (fun _ => (5 : ℚ))
      (fun _ m => m + 1) "mvdr" () [(1 : ℚ), 2] 7 (by decide)).2 0
        (by decide)).2.1 rfl⟩

/-- Complex multiplication on pairs `(re, im)` of rationals. -/
def cmul (x y : ℚ × ℚ) : ℚ × ℚ :=
  (x.1 * y.1 - x.2 * y.2, x.1 * y.2 + x.2 * y.1)

/-- Complex conjugation on pairs `(re, im)` of rationals. -/
def cconj (x : ℚ × ℚ) : ℚ × ℚ :=
  (x.1, -x.2)

/-- Division of a complex pair by a rational scalar. -/
def cdivR (x : ℚ × ℚ) (q : ℚ) : ℚ × ℚ :=
  (x.1 / q, x.2 / q)

/-- Modelled from the spec: `get_power_spectral_density_matrix` — the
mask-weighted empirical covariance, whose source
(`espnet/nets/pytorch_backend/frontends/beamformer.py`) is not under `src/`:
`PSD[i,j] = Σ_t M[t] · S[i,t] · conj(S[j,t]) / Σ_t M[t]`, one (batch,
frequency) slice at a time. -/
def specPSD (C T : Nat) (x : Fin C → Fin T → ℚ × ℚ) (m : Fin T → ℚ) :
    Fin C → Fin C → ℚ × ℚ :=
  fun i j => cdivR (∑ t, m t • cmul (x i t) (cconj (x j t))) (∑ t, m t)

/-- Modelled from the spec: the unweighted observed-signal covariance used by
MPDR, `FC.einsum('...ct,...et->...ce', [data, data.conj()])`:
`PSD_obs[i,j] = Σ_t S[i,t] · conj(S[j,t])`. -/
def specObsCov (C T : Nat) (x : Fin C → Fin T → ℚ × ℚ) : Fin C → Fin C → ℚ × ℚ :=
  fun i j => ∑ t, cmul (x i t) (cconj (x j t))

/-- The concrete single-channel, two-frame spectrum of the C3 counterexample:
frame values `1` and `2` (real). -/
def cexData : Fin 1 → Fin 2 → ℚ × ℚ :=
  fun _ t => (if t = 0 then 1 else 2, 0)

/-- First speaker's mask in the C3 counterexample: frame `0` only. -/
def cexMask1 : Fin 2 → ℚ := fun t => if t = 0 then 1 else 0

/-- Second speaker's mask in the C3 counterexample: frame `1` only. -/
def cexMask2 : Fin 2 → ℚ := fun t => if t = 0 then 0 else 1

/-- Noise mask in the C3 counterexample: all ones. -/
def cexMaskNoise : Fin 2 → ℚ := fun _ => 1

/-- C3 counterexample: with `beamformer_type = "mpdr"` the interference
covariance passed to filter design for speaker `0` is the observed-signal
covariance, which on this concrete input (entry value `5`) differs from the
claimed sum of the other speakers' PSDs plus the noise-mask PSD (entry value
`13/2`); the claim is therefore false for `mpdr`. -/
theorem multi_speaker_mpdr_interference_counterexample :
    ((multiSpkDesign (specPSD 1 2) (specObsCov 1 2) (fun _ _ => 0) "mpdr"
        cexData [cexMask1, cexMask2] cexMaskNoise).getD 0 (0, 0)).2 ≠
      ((([cexMask1, cexMask2].map (specPSD 1 2 cexData)).eraseIdx 0).sum +
        specPSD 1 2 cexData cexMaskNoise) := by
  intro h
  have h00 := congrFun (congrFun h 0) 0
  have hL : ((multiSpkDesign (specPSD 1 2) (specObsCov 1 2) (fun _ _ => 0) "mpdr"
      cexData [cexMask1, cexMask2] cexMaskNoise).getD 0 (0, 0)).2 0 0 =
      ((5 : ℚ), (0 : ℚ)) := by
    show specObsCov 1 2 cexData 0 0 = ((5 : ℚ), (0 : ℚ))
    rw [specObsCov, Fin.sum_univ_two]
    norm_num [cexData, cmul, cconj]
  have hm2 : specPSD 1 2 cexData cexMask2 0 0 = ((4 : ℚ), (0 : ℚ)) := by
    rw [specPSD, Fin.sum_univ_two, Fin.sum_univ_two]
    norm_num [cexData, cexMask2, cmul, cconj, cdivR, Prod.smul_mk, smul_eq_mul]
  have hmn : specPSD 1 2 cexData cexMaskNoise 0 0 = ((5 / 2 : ℚ), (0 : ℚ)) := by
    rw [specPSD, Fin.sum_univ_two, Fin.sum_univ_two]
    norm_num [cexData, cexMaskNoise, cmul, cconj, cdivR, Prod.smul_mk, smul_eq_mul]
  have hR : ((([cexMask1, cexMask2].map (specPSD 1 2 cexData)).eraseIdx 0).sum +
      specPSD 1 2 cexData cexMaskNoise) 0 0 = ((13 / 2 : ℚ), (0 : ℚ)) := by
    show ((specPSD 1 2 cexData cexMask2 + 0) + specPSD 1 2 cexData cexMaskNoise) 0 0 =
      ((13 / 2 : ℚ), (0 : ℚ))
    rw [Pi.add_apply, Pi.add_apply, Pi.add_apply, Pi.add_apply, hm2, hmn]
    norm_num [Prod.ext_iff]
  rw [hL, hR] at h00
  rw [Prod.ext_iff] at h00
  exact absurd h00.1 (by norm_num)

/-! ## Claims C8 and C10: the reference vector -/

/-- The divisor `C - 1` by which `AttentionReference.forward` averages the
off-diagonal row sums of the PSD matrix; the source divides by it with no
guard. -/
noncomputable def attnDivisor (C : Nat) : ℝ :=
  (C : ℝ) - 1

/-- Softmax across channels (`F.softmax(scaling * e, dim=-1)`). -/
noncomputable def softmaxR {C : Nat} (x : Fin C → ℝ) : Fin C → ℝ :=
  fun i => Real.exp (x i) / ∑ j, Real.exp (x j)

/-- Shallow embedding of `AttentionReference.forward`
(`espnet2/asr/frontend/nets/dnn_beamformer.py`), one batch element at a time:
the PSD matrix `psd_in` (frequency × channel × channel) has its diagonal
zeroed (`masked_fill` with the identity mask), its rows are summed and
divided by `C - 1`, the amplitude `(re² + im²) ** 0.5` is taken, a linear
layer (`mlp_psd`: weights `W`, bias `bW`), `tanh` and a scalar projection
(`gvec`: weights `g`, bias `bg`) produce per-channel scores `e`, and the
result is `softmax(scaling · e)` across the channel dimension. -/
noncomputable def attentionRefU (C F A : Nat) (psd_in : Fin F → Fin C → Fin C → ℂ)
    (W : Fin A → Fin F → ℝ) (bW : Fin A → ℝ) (g : Fin A → ℝ) (bg : ℝ)
    (scaling : ℝ := 2) : Fin C → ℝ :=
  let psd := fun (f : Fin F) (c : Fin C) (c2 : Fin C) =>
    if c = c2 then 0 else psd_in f c c2
  let psd_feat := fun (c : Fin C) (f : Fin F) =>
    Complex.abs ((∑ c2, psd f c c2) / (attnDivisor C : ℂ))
  let mlp_psd := fun (c : Fin C) (a : Fin A) => (∑ f, W a f * psd_feat c f) + bW a
  let e := fun (c : Fin C) => (∑ a, g a * Real.tanh (mlp_psd c a)) + bg
  softmaxR (fun c => scaling * e c)

/-- The finiteness guard for `attentionRefU`: in the floating-point source,
dividing the row sums by `C - 1 = 0` produces non-finite values, so a finite
reference vector is only guaranteed when the divisor is nonzero; this variant
returns `none` exactly when the unguarded division in `attentionRefU`
divides by zero. -/
noncomputable def attentionRefUChecked (C F A : Nat)
    (psd_in : Fin F → Fin C → Fin C → ℂ) (W : Fin A → Fin F → ℝ) (bW : Fin A → ℝ)
    (g : Fin A → ℝ) (bg : ℝ) (scaling : ℝ := 2) : Option (Fin C → ℝ) :=
  if attnDivisor C = 0 then none
  else some (attentionRefU C F A psd_in W bW g bg scaling)

/-- The reference vector `u` inside `apply_beamforming`
(`DNN_Beamformer.forward`): the `AttentionReference` output when
`ref_channel < 0`, otherwise the one-hot vector with a `1` at the configured
channel (`torch.zeros(...)` followed by `u[..., self.ref_channel].fill_(1)`). -/
noncomputable def refU (ref_channel : Int) (C F A : Nat)
    (psd_speech : Fin F → Fin C → Fin C → ℂ) (W : Fin A → Fin F → ℝ)
    (bW : Fin A → ℝ) (g : Fin A → ℝ) (bg : ℝ) : Fin C → ℝ :=
  if ref_channel < 0 then
    attentionRefU C F A psd_speech W bW g bg
  else
    fun c : Fin C => if ((c : Nat) : Int) = ref_channel then (1 : ℝ) else 0

theorem attentionRefU_eq_softmax (C F A : Nat) (psd_in : Fin F → Fin C → Fin C → ℂ)
    (W : Fin A → Fin F → ℝ) (bW : Fin A → ℝ) (g : Fin A → ℝ) (bg : ℝ) :
    attentionRefU C F A psd_in W bW g bg = softmaxR (fun c =>
      2 * ((∑ a, g a * Real.tanh ((∑ f, W a f *
        Complex.abs ((∑ c2, (if c = c2 then (0 : ℂ) else psd_in f c c2)) /
          (attnDivisor C : ℂ))) + bW a)) + bg)) := rfl

theorem softmaxR_nonneg {C : Nat} (x : Fin C → ℝ) (c : Fin C) : 0 ≤ softmaxR x c := by
  apply div_nonneg (Real.exp_nonneg _)
  exact Finset.sum_nonneg (fun j _ => Real.exp_nonneg _)

theorem softmaxR_sum_one {C : Nat} (hC : 1 ≤ C) (x : Fin C → ℝ) :
    (∑ c, softmaxR x c) = 1 := by
  have hne : Nonempty (Fin C) := ⟨⟨0, hC⟩⟩
  have hpos : 0 < ∑ j, Real.exp (x j) :=
    Finset.sum_pos (fun j _ => Real.exp_pos _) Finset.univ_nonempty
  simp only [softmaxR]
  rw [← Finset.sum_div]
  exact div_self (ne_of_gt hpos)

/-- C8: the reference vector fed to filter design is non-negative and sums to
one across channels in both modes: for `ref_channel ≥ 0` it is the one-hot
vector at the configured channel, and for `ref_channel < 0` it is the softmax
output of `AttentionReference` across the channel dimension. -/
theorem ref_vector_nonneg_sums_to_one (ref_channel : Int) (C F A : Nat)
    (psd_speech : Fin F → Fin C → Fin C → ℂ) (W : Fin A → Fin F → ℝ)
    (bW : Fin A → ℝ) (g : Fin A → ℝ) (bg : ℝ)
    (hC : 1 ≤ C) (hrc : ref_channel < C) :
    (∀ c, 0 ≤ refU ref_channel C F A psd_speech W bW g bg c) ∧
    (∑ c, refU ref_channel C F A psd_speech W bW g bg c) = 1 ∧
    (ref_channel < 0 →
      refU ref_channel C F A psd_speech W bW g bg =
        attentionRefU C F A psd_speech W bW g bg) ∧
    (0 ≤ ref_channel →
      refU ref_channel C F A psd_speech W bW g bg =
        fun c : Fin C => if ((c : Nat) : Int) = ref_channel then (1 : ℝ) else 0) := by
  by_cases hneg : ref_channel < 0
  · rw [refU, if_pos hneg, attentionRefU_eq_softmax]
    refine ⟨?_, ?_, fun _ => rfl, fun hge => absurd hneg (not_lt.mpr hge)⟩
    · intro c
      exact softmaxR_nonneg _ c
    · exact softmaxR_sum_one hC _
  · have hge : 0 ≤ ref_channel := not_lt.mp hneg
    have hlt : ref_channel.toNat < C := by omega
    rw [refU, if_neg hneg]
    refine ⟨?_, ?_, fun hlt0 => absurd hlt0 hneg, fun _ => rfl⟩
    · intro c
      split
      · norm_num
      · norm_num
    · have hc0 : ((⟨ref_channel.toNat, hlt⟩ : Fin C) : Int) = ref_channel := by
        simp [Int.toNat_of_nonneg hge]
      have hiff : ∀ c : Fin C, (((c : Nat) : Int) = ref_channel) ↔
          (c = ⟨ref_channel.toNat, hlt⟩) := by
        intro c
        constructor
        · intro h
          apply Fin.ext
          have hcast : ((c : Nat) : Int) = (((⟨ref_channel.toNat, hlt⟩ : Fin C) : Nat) : Int) := by
            rw [show (((⟨ref_channel.toNat, hlt⟩ : Fin C) : Nat) : Int) = ref_channel from hc0]
            exact h
          exact_mod_cast hcast
        · intro h
          rw [h]
          exact hc0
      calc (∑ c : Fin C, if ((c : Nat) : Int) = ref_channel then (1 : ℝ) else 0)
          = ∑ c : Fin C, if c = (⟨ref_channel.toNat, hlt⟩ : Fin C) then (1 : ℝ) else 0 := by
            apply Finset.sum_congr rfl
            intro c _
            rw [if_congr (hiff c) rfl rfl]
        _ = 1 := by
            rw [Finset.sum_ite_eq' Finset.univ (⟨ref_channel.toNat, hlt⟩ : Fin C)
              (fun _ => (1 : ℝ))]
            simp

theorem ref_vector_nonneg_sums_to_one_witness :
    (1 ≤ 2 ∧ (0 : Int) < (2 : Nat)) ∧
      (∑ c, refU 0 2 1 1 (fun _ _ _ => 0) (fun _ _ => 0) (fun _ => 0)
        (fun _ => 0) 0 c) = 1 :=
  ⟨⟨by decide, by decide⟩,
    (ref_vector_nonneg_sums_to_one 0 2 1 1 (fun _ _ _ => 0) (fun _ _ => 0)
      (fun _ => 0) (fun _ => 0) 0 (by decide) (by decide)).2.1⟩

/-- C10: `AttentionReference.forward` divides the off-diagonal row sums by
`C - 1` with no guard, so for a single-channel input (`C = 1`) the divisor is
zero and the computation divides by zero; the division is sound — and a
finite reference vector guaranteed — exactly under the precondition `C ≥ 2`,
where the checked computation returns the unguarded result. -/
theorem attention_reference_single_channel_division_by_zero :
    (attnDivisor 1 = 0) ∧
    (∀ (F A : Nat) (psd_in : Fin F → Fin 1 → Fin 1 → ℂ) (W : Fin A → Fin F → ℝ)
      (bW : Fin A → ℝ) (g : Fin A → ℝ) (bg : ℝ),
      attentionRefUChecked 1 F A psd_in W bW g bg = none) ∧
    (∀ C : Nat, 2 ≤ C → attnDivisor C ≠ 0) ∧
    (∀ (C F A : Nat), 2 ≤ C →
      ∀ (psd_in : Fin F → Fin C → Fin C → ℂ) (W : Fin A → Fin F → ℝ)
        (bW : Fin A → ℝ) (g : Fin A → ℝ) (bg : ℝ),
        attentionRefUChecked C F A psd_in W bW g bg =
          some (attentionRefU C F A psd_in W bW g bg)) := by
  have hzero : attnDivisor 1 = 0 := by
    rw [attnDivisor]
    norm_num
  have hnonzero : ∀ C : Nat, 2 ≤ C → attnDivisor C ≠ 0 := by
    intro C hC
    rw [attnDivisor]
    have h2 : (2 : ℝ) ≤ (C : ℝ) := by exact_mod_cast hC
    intro h
    linarith
  refine ⟨hzero, ?_, hnonzero, ?_⟩
  · intro F A psd_in W bW g bg
    rw [attentionRefUChecked, if_pos hzero]
  · intro C F A hC psd_in W bW g bg
    rw [attentionRefUChecked, if_neg (hnonzero C hC)]

theorem attention_reference_single_channel_division_by_zero_witness :
    2 ≤ 2 ∧
      attentionRefUChecked 2 1 1 (fun _ _ _ => 0) (fun _ _ => 0) (fun _ => 0)
          (fun _ => 0) 0 =
        some (attentionRefU 2 1 1 (fun _ _ _ => 0) (fun _ _ => 0) (fun _ => 0)
          (fun _ => 0) 0) :=
  ⟨by decide,
    attention_reference_single_channel_division_by_zero.2.2.2 2 1 1 (by decide)
      (fun _ _ _ => 0) (fun _ _ => 0) (fun _ => 0) (fun _ => 0) 0⟩
